import Mathlib

/-!
Verification of `scripts/fill_template.py`, a project-template initializer.

The development shallowly embeds the script's pure logic:
strings are modelled as `List Char`, the regular-expression patterns the
script compiles are modelled by a small executable matcher over character
classes (Brzozowski derivatives, proved equivalent to an inductive
language semantics), interactive reads are modelled by passing the user's
response line as an explicit argument, and filesystem writes are modelled
as explicit write records in the result of each step.
-/

namespace FillTemplate

/-- Strings are modelled as lists of characters. -/
abbrev Str := List Char

/-- Shorthand for embedding a Lean string literal into the model. -/
def lit (s : String) : Str := s.toList

/- § Python primitives used by the script (modelled for ASCII text). -/

/-- Python whitespace class `\s`, restricted to the ASCII whitespace
characters (the templates contain no other whitespace). -/
def wsCls (c : Char) : Bool :=
  c = ' ' || c = '\t' || c = '\n' || c = '\r' || c = '\x0b' || c = '\x0c'

/-- `str.strip()`: drop leading and trailing whitespace. -/
def pyStrip (s : Str) : Str :=
  ((s.dropWhile wsCls).reverse.dropWhile wsCls).reverse

/-- `str.split(',')`: split at every comma, keeping empty pieces. -/
def pySplitComma : Str → List Str
  | [] => [[]]
  | c :: rest =>
    match pySplitComma rest with
    | [] => [[]]
    | g :: gs => if c = ',' then [] :: g :: gs else (c :: g) :: gs

/-- `int(response)`: strip whitespace, optional sign, decimal digits.
(Python's underscore digit grouping is elided; the script's menus only
see plain numerals.) -/
def digitsToNat : Str → Option Nat
  | [] => none
  | ds =>
    if ds.all (fun c => '0' ≤ c && c ≤ '9') then
      some (ds.foldl (fun acc c => acc * 10 + (c.toNat - '0'.toNat)) 0)
    else none

def pyInt (s : Str) : Option Int :=
  match pyStrip s with
  | '+' :: ds => (digitsToNat ds).map Int.ofNat
  | '-' :: ds => (digitsToNat ds).map (fun n => -(n : Int))
  | ds => (digitsToNat ds).map Int.ofNat

/-- Python list indexing `l[i]`: negative indices count from the end;
out-of-range access raises IndexError, modelled as `none`. -/
def pyListGet (l : List α) (i : Int) : Option α :=
  if 0 ≤ i then l[i.toNat]?
  else if i.natAbs ≤ l.length then l[l.length - i.natAbs]? else none

/-- `str.partition(sep)` core: split at the first occurrence of `c`,
returning the part before and the part after, or `none` when `c` is
absent. -/
def splitAtFirst (c : Char) : Str → Option (Str × Str)
  | [] => none
  | a :: rest =>
    if a = c then some ([], rest)
    else (splitAtFirst c rest).map (fun p => (a :: p.1, p.2))

/-- `pathlib.PurePath.suffix` on a file name: the part from the last dot,
provided that dot is neither the first nor the last character. -/
def lastDotIdx : Str → Option Nat
  | [] => none
  | c :: t =>
    match lastDotIdx t with
    | some i => some (i + 1)
    | none => if c = '.' then some 0 else none

def pySuffix (name : Str) : Str :=
  match lastDotIdx name with
  | some i => if 0 < i ∧ i + 1 < name.length then name.drop i else []
  | none => []

/-- `pathlib.PurePath.with_suffix(new)` on a file name: replace the
existing suffix if there is one, otherwise append. -/
def withSuffix (name new : Str) : Str :=
  let old := pySuffix name
  if old ≠ [] then name.take (name.length - old.length) ++ new
  else name ++ new

/- § Regular expressions.

The script compiles three `re` patterns.  They are modelled by a regex
datatype over character classes with an executable Brzozowski-derivative
matcher; `re.fullmatch` corresponds to matching the whole string. -/

inductive Rx where
  | fail : Rx
  | eps : Rx
  | cls (p : Char → Bool) : Rx
  | cat (a b : Rx) : Rx
  | alt (a b : Rx) : Rx
  | star (a : Rx) : Rx

/-- A single literal character, as a one-element class. -/
def chCls (c : Char) : Rx := .cls (fun x => x = c)

/-- `r{n}`: `n` copies of `r` in sequence. -/
def Rx.rep (r : Rx) : Nat → Rx
  | 0 => .eps
  | n + 1 => .cat r (Rx.rep r n)

/-- `r+`: one or more repetitions. -/
def Rx.plus (r : Rx) : Rx := .cat r (.star r)

def nullable : Rx → Bool
  | .fail => false
  | .eps => true
  | .cls _ => false
  | .cat a b => nullable a && nullable b
  | .alt a b => nullable a || nullable b
  | .star _ => true

def deriv (r : Rx) (c : Char) : Rx :=
  match r with
  | .fail => .fail
  | .eps => .fail
  | .cls p => if p c then .eps else .fail
  | .cat a b =>
    if nullable a then .alt (.cat (deriv a c) b) (deriv b c)
    else .cat (deriv a c) b
  | .alt a b => .alt (deriv a c) (deriv b c)
  | .star a => .cat (deriv a c) (.star a)

/-- `re.fullmatch`: the whole string is in the pattern's language. -/
def rmatch (r : Rx) (s : Str) : Bool := nullable (s.foldl deriv r)

/-- The language semantics of a regex. -/
inductive RxM : Rx → Str → Prop where
  | eps : RxM .eps []
  | cls (p : Char → Bool) (c : Char) : p c = true → RxM (.cls p) [c]
  | cat {a b s1 s2} : RxM a s1 → RxM b s2 → RxM (.cat a b) (s1 ++ s2)
  | altL {a b s} : RxM a s → RxM (.alt a b) s
  | altR {a b s} : RxM b s → RxM (.alt a b) s
  | starNil {a} : RxM (.star a) []
  | starCons {a s1 s2} : RxM a s1 → RxM (.star a) s2 → RxM (.star a) (s1 ++ s2)

/-- Inversion for class regexes. -/
theorem cls_iff (p : Char → Bool) (s : Str) :
    RxM (.cls p) s ↔ ∃ c, p c = true ∧ s = [c] := by
  constructor
  · intro h
    cases h with
    | cls p c hc => exact ⟨c, hc, rfl⟩
  · rintro ⟨c, hc, rfl⟩
    exact .cls p c hc

/-- Inversion for concatenation. -/
theorem cat_iff (a b : Rx) (s : Str) :
    RxM (.cat a b) s ↔ ∃ s1 s2, s = s1 ++ s2 ∧ RxM a s1 ∧ RxM b s2 := by
  constructor
  · intro h
    cases h with
    | cat h1 h2 => exact ⟨_, _, rfl, h1, h2⟩
  · rintro ⟨s1, s2, rfl, h1, h2⟩
    exact .cat h1 h2

theorem nullable_iff (r : Rx) : nullable r = true ↔ RxM r [] := by
  induction r with
  | fail => simp [nullable]; intro h; cases h
  | eps => simp [nullable]; exact .eps
  | cls p => simp [nullable]; intro h; cases h
  | cat a b iha ihb =>
    simp only [nullable, Bool.and_eq_true, iha, ihb]
    constructor
    · rintro ⟨ha, hb⟩
      have := RxM.cat ha hb
      simpa using this
    · intro h
      rcases (cat_iff a b []).mp h with ⟨s1, s2, heq, h1, h2⟩
      rcases List.append_eq_nil.mp heq.symm with ⟨e1, e2⟩
      subst e1; subst e2
      exact ⟨h1, h2⟩
  | alt a b iha ihb =>
    simp only [nullable, Bool.or_eq_true, iha, ihb]
    constructor
    · rintro (h | h)
      · exact .altL h
      · exact .altR h
    · intro h
      cases h with
      | altL h => exact Or.inl h
      | altR h => exact Or.inr h
  | star a ih =>
    simp [nullable]
    exact .starNil

theorem star_inv {a : Rx} {s : Str} (h : RxM (.star a) s) (hne : s ≠ []) :
    ∃ s1 s2, s1 ≠ [] ∧ RxM a s1 ∧ RxM (.star a) s2 ∧ s = s1 ++ s2 := by
  generalize hr : Rx.star a = r at h
  induction h with
  | eps => cases hr
  | cls _ _ _ => cases hr
  | cat _ _ => cases hr
  | altL _ => cases hr
  | altR _ => cases hr
  | starNil => exact absurd rfl hne
  | starCons h1 h2 ih1 ih2 =>
    cases hr
    rename_i s1 s2
    by_cases h1e : s1 = []
    · subst h1e
      simp only [List.nil_append] at hne ⊢
      exact ih2 hne rfl
    · exact ⟨s1, s2, h1e, h1, h2, rfl⟩

theorem deriv_iff (r : Rx) (c : Char) (s : Str) :
    RxM (deriv r c) s ↔ RxM r (c :: s) := by
  induction r generalizing s with
  | fail =>
    simp only [deriv]
    constructor <;> (intro h; cases h)
  | eps =>
    simp only [deriv]
    constructor <;> (intro h; cases h)
  | cls p =>
    simp only [deriv]
    by_cases hp : p c
    · simp only [hp, if_true]
      constructor
      · intro h; cases h; exact .cls p c hp
      · intro h; cases h; exact .eps
    · simp only [hp, if_false]
      constructor
      · intro h; cases h
      · intro h; cases h; exact absurd (by assumption) hp
  | cat a b iha ihb =>
    simp only [deriv]
    by_cases hn : nullable a
    · simp only [hn, if_true]
      constructor
      · intro h
        cases h with
        | altL h =>
          cases h with
          | cat h1 h2 =>
            have h1' := (iha _).mp h1
            have := RxM.cat h1' h2
            simpa using this
        | altR h =>
          have hb' := (ihb _).mp h
          have ha0 : RxM a [] := (nullable_iff a).mp hn
          have := RxM.cat ha0 hb'
          simpa using this
      · intro h
        rcases (cat_iff a b (c :: s)).mp h with ⟨s1, s2, heq, h1, h2⟩
        cases s1 with
        | nil =>
          simp only [List.nil_append] at heq
          subst heq
          exact .altR ((ihb _).mpr h2)
        | cons x s1' =>
          rw [List.cons_append] at heq
          injection heq with hx hs
          subst hx; subst hs
          exact .altL (RxM.cat ((iha _).mpr h1) h2)
    · simp only [hn, if_false]
      constructor
      · intro h
        cases h with
        | cat h1 h2 =>
          have h1' := (iha _).mp h1
          have := RxM.cat h1' h2
          simpa using this
      · intro h
        rcases (cat_iff a b (c :: s)).mp h with ⟨s1, s2, heq, h1, h2⟩
        cases s1 with
        | nil =>
          exact absurd ((nullable_iff a).mpr h1) (by simpa using hn)
        | cons x s1' =>
          rw [List.cons_append] at heq
          injection heq with hx hs
          subst hx; subst hs
          exact RxM.cat ((iha _).mpr h1) h2
  | alt a b iha ihb =>
    simp only [deriv]
    constructor
    · intro h
      cases h with
      | altL h => exact .altL ((iha _).mp h)
      | altR h => exact .altR ((ihb _).mp h)
    · intro h
      cases h with
      | altL h => exact .altL ((iha _).mpr h)
      | altR h => exact .altR ((ihb _).mpr h)
  | star a ih =>
    simp only [deriv]
    constructor
    · intro h
      cases h with
      | cat h1 h2 =>
        have h1' := (ih _).mp h1
        have := RxM.starCons h1' h2
        simpa using this
    · intro h
      obtain ⟨s1, s2, hne, h1, h2, heq⟩ := star_inv h (by simp)
      cases s1 with
      | nil => exact absurd rfl hne
      | cons x s1' =>
        rw [List.cons_append] at heq
        injection heq with hx hs
        subst hx; subst hs
        exact RxM.cat ((ih _).mpr h1) h2

theorem rmatch_iff (r : Rx) (s : Str) : rmatch r s = true ↔ RxM r s := by
  induction s generalizing r with
  | nil => exact nullable_iff r
  | cons c t ih =>
    simp only [rmatch, List.foldl_cons] at *
    exact (ih (deriv r c)).trans (deriv_iff r c t)

/-- A starred class matches exactly the strings all of whose characters
satisfy the class. -/
theorem starCls_iff (p : Char → Bool) (s : Str) :
    RxM (.star (.cls p)) s ↔ ∀ c ∈ s, p c = true := by
  constructor
  · intro h
    generalize hr : Rx.star (.cls p) = r at h
    induction h with
    | eps => cases hr
    | cls _ _ _ => cases hr
    | cat _ _ => cases hr
    | altL _ => cases hr
    | altR _ => cases hr
    | starNil => cases hr; intro c hc; cases hc
    | starCons h1 h2 ih1 ih2 =>
      cases hr
      intro c hc
      rcases List.mem_append.mp hc with hc1 | hc2
      · cases h1 with
        | cls _ _ hp =>
          rcases List.mem_singleton.mp hc1 with rfl
          exact hp
      · exact ih2 rfl c hc2
  · intro h
    induction s with
    | nil => exact .starNil
    | cons c t ih =>
      have hc : p c = true := h c (List.mem_cons_self c t)
      have ht : RxM (.star (.cls p)) t := ih (fun x hx => h x (List.mem_cons_of_mem c hx))
      have := RxM.starCons (.cls p c hc) ht
      simpa using this

/-- A `+`-repeated class matches exactly the nonempty strings all of
whose characters satisfy the class. -/
theorem plusCls_iff (p : Char → Bool) (s : Str) :
    RxM (Rx.plus (.cls p)) s ↔ s ≠ [] ∧ ∀ c ∈ s, p c = true := by
  unfold Rx.plus
  rw [cat_iff]
  constructor
  · rintro ⟨s1, s2, rfl, h1, h2⟩
    rcases (cls_iff p s1).mp h1 with ⟨c, hc, rfl⟩
    refine ⟨by simp, ?_⟩
    intro x hx
    rcases List.mem_cons.mp hx with rfl | hx2
    · exact hc
    · exact (starCls_iff p s2).mp h2 x hx2
  · rintro ⟨hne, h⟩
    cases s with
    | nil => exact absurd rfl hne
    | cons c t =>
      exact ⟨[c], t, rfl, .cls p c (h c (List.mem_cons_self c t)),
        (starCls_iff p t).mpr (fun x hx => h x (List.mem_cons_of_mem c hx))⟩

/-- A repeated class matches exactly the strings of that length all of
whose characters satisfy the class. -/
theorem repCls_iff (p : Char → Bool) (n : Nat) (s : Str) :
    RxM (Rx.rep (.cls p) n) s ↔ s.length = n ∧ ∀ c ∈ s, p c = true := by
  induction n generalizing s with
  | zero =>
    simp only [Rx.rep]
    constructor
    · intro h; cases h; simp
    · rintro ⟨hlen, _⟩
      rcases List.length_eq_zero.mp hlen with rfl
      exact .eps
  | succ n ih =>
    simp only [Rx.rep]
    rw [cat_iff]
    constructor
    · rintro ⟨s1, s2, rfl, h1, h2⟩
      rcases (cls_iff p s1).mp h1 with ⟨c, hc, rfl⟩
      rcases (ih s2).mp h2 with ⟨hlen, hall⟩
      refine ⟨by simp [hlen], ?_⟩
      intro x hx
      rcases List.mem_cons.mp hx with rfl | hx2
      · exact hc
      · exact hall x hx2
    · rintro ⟨hlen, hall⟩
      cases s with
      | nil => simp at hlen
      | cons c t =>
        refine ⟨[c], t, rfl, .cls p c (hall c (List.mem_cons_self c t)), ?_⟩
        exact (ih t).mpr ⟨by simpa using hlen, fun x hx => hall x (List.mem_cons_of_mem c hx)⟩

/- § The patterns compiled by the script. -/

/-- `[0-9]` -/
def digitCls (c : Char) : Bool := '0' ≤ c && c ≤ '9'

/-- `[a-zA-Z\s0-9_]` -/
def nameCls (c : Char) : Bool := c.isAlpha || wsCls c || digitCls c || c = '_'

/-- `[a-zA-Z._0-9]` -/
def emailCls (c : Char) : Bool := c.isAlpha || c = '.' || c = '_' || digitCls c

/-- `author_pattern`: `[a-zA-Z\s0-9_]+\s<[a-zA-Z._0-9]+@[a-zA-Z._0-9]+>` -/
def authorRx : Rx :=
  .cat (Rx.plus (.cls nameCls))
    (.cat (.cls wsCls)
      (.cat (chCls '<')
        (.cat (Rx.plus (.cls emailCls))
          (.cat (chCls '@')
            (.cat (Rx.plus (.cls emailCls)) (chCls '>'))))))

/-- The `AuthorsResolver` pattern:
`author_pattern + "(,\s*" + author_pattern + ")*"`. -/
def authorsRx : Rx :=
  .cat authorRx (.star (.cat (chCls ',') (.cat (.star (.cls wsCls)) authorRx)))

/-- The `year` decision's pattern: `[0-9]{4}`. -/
def yearRx : Rx := Rx.rep (.cls digitCls) 4

/- § Values.

Python values flowing through the script, as a closed datatype: the
resolved decision values (strings, `License`, `Authors`, `PyVersions`,
`DecisionOption` named tuples), Python's `None`, lists, and the callables
reachable from the placeholder evaluator.  Bound methods of the source's
classes are pure, so a zero-argument bound method is modelled by the
value it returns when called. -/

inductive Value where
  | str (s : Str)
  | pyNone
  | license (long short : Str)
  | authorsV (parts : List Str)
  | pyVersions (semver : Str) (minors : List Str) (preferred : Str)
  | decisionOpt (name : Str) (v : Value)
  | vlist (elems : List Value)
  | bound0 (result : Value)
  | bound1TypeErr
  | hotswap (method : Str)

/-- Python exceptions the modelled code can raise. -/
inductive PyErr where
  | keyError (k : Str)
  | nameError
  | typeError
  | valueError
  | recursionLimit
deriving DecidableEq

/- § Decision resolvers. -/

/-- `RegexDecisionValidator.custom_option`: the text must fully match the
pattern, else `ValueError`; on success the raw text is the value. -/
def custom_option (pat : Rx) (x : Str) : Except PyErr Value :=
  if rmatch pat x then .ok (.str x) else .error .valueError

/-- `Authors.__init__`: split the text at commas and strip each part. -/
def authorsParts (x : Str) : List Str := (pySplitComma x).map pyStrip

/-- `AuthorsResolver.custom_option`: validate against the authors pattern,
then wrap in an `Authors` object. -/
def authorsCustomOption (x : Str) : Except PyErr Value :=
  match custom_option authorsRx x with
  | .ok _ => .ok (.authorsV (authorsParts x))
  | .error e => .error e

/-- Outcome of the custom-text phase of `DecisionResolver.make`: a
successful `custom_option` call returns its value from `make`; an
exception is printed and `make` recurses (a reprompt). -/
inductive CustomStep where
  | accept (v : Value)
  | reprompt

def makeCustomStep (co : Str → Except PyErr Value) (text : Str) : CustomStep :=
  match co text with
  | .ok v => .accept v
  | .error _ => .reprompt

/-- The custom-text phase for the `year` decision
(`ConstResolver(pattern=re.compile('[0-9]{4}'))`). -/
def yearCustomStep (text : Str) : CustomStep :=
  makeCustomStep (custom_option yearRx) text

/-- The custom-text phase for the `authors` decision. -/
def authorsCustomStep (text : Str) : CustomStep :=
  makeCustomStep authorsCustomOption text

/-- Outcome of one interaction round of `DecisionResolver.make`, given
the options list and the user's response line: return a value, move to
the custom-text prompt, print an error and recurse (reprompt), or crash
with an uncaught `IndexError`. -/
inductive MakeStep where
  | ret (v : Value)
  | askCustom
  | reprompt
  | indexError

/-- One round of `DecisionResolver.make`.  The menu printed beforehand
numbers the options from 1 (`enumerate(options, 1)`).  A parsed integer
below `len(options)` is used directly as a Python list index
(`options[response_int]`), and the selected `DecisionOption` itself is
returned. -/
def make (options : List (Str × Value)) (hasCustom : Bool) (response : Str) : MakeStep :=
  match pyInt response with
  | some n =>
    if n < (options.length : Int) then
      match pyListGet options n with
      | some o => .ret (.decisionOpt o.1 o.2)
      | none => .indexError
    else if hasCustom && response = lit "t" then .askCustom
    else .reprompt
  | none =>
    if hasCustom && response = lit "t" then .askCustom
    else .reprompt

/- § The placeholder expression evaluator (`repl`/`inner` in `main`). -/

/-- `', '.join(minors)` -/
def joinCommaSpace (parts : List Str) : Str := List.intercalate (lit ", ") parts

/-- `str.split()` with no argument: whitespace-separated words. -/
def pySplitWs (s : Str) : List Str := (s.splitOnP wsCls).filter (· ≠ [])

/-- `getattr(v, a, None)`, for the attributes the source's classes
define.  Attributes inherited from `object`/`tuple`/`str` other than
`str.split` are elided: no template accessor names them.  A bound method
taking no further arguments is modelled by the value it returns. -/
def pyGetattr (v : Value) (a : Str) : Option Value :=
  match v with
  | .license l s =>
    if a = lit "long" then some (.str l)
    else if a = lit "short" then some (.str s)
    else if a = lit "format_map" then some .bound1TypeErr
    else none
  | .authorsV parts =>
    if a = lit "parts" then some (.vlist (parts.map .str))
    else if a = lit "split" then some (.bound0 (.vlist (parts.map .str)))
    else none
  | .pyVersions sv mins pref =>
    if a = lit "semver" then some (.str sv)
    else if a = lit "_minors" then some (.vlist (mins.map .str))
    else if a = lit "preferred" then some (.str pref)
    else if a = lit "minors" then some (.bound0 (.str (joinCommaSpace mins)))
    else none
  | .decisionOpt n dv =>
    if a = lit "name" then some (.str n)
    else if a = lit "value" then some dv
    else none
  | .str s =>
    if a = lit "split" then some (.bound0 (.vlist ((pySplitWs s).map .str)))
    else none
  | _ => none

/-- `eval(second)` in `repl`'s scope: the module-level names a template
accessor can reach.  `split` is bound to `custom_text_hotswap('short')`
in the source.  Module globals that no template accessor names
(functions, classes, option tables) are elided; any other name raises
`NameError`. -/
def evalGlobal (name : Str) : Except PyErr Value :=
  if name = lit "preferred" then .ok (.hotswap (lit "preferred"))
  else if name = lit "split" then .ok (.hotswap (lit "short"))
  else if name = lit "semver" then .ok (.hotswap (lit "semver"))
  else .error .nameError

def pyCallable : Value → Bool
  | .bound0 _ => true
  | .bound1TypeErr => true
  | .hotswap _ => true
  | _ => false

/-- Calling a callable with no arguments.  The hotswap functions and
`format_map` require an argument, so a zero-argument call raises
`TypeError`. -/
def pyCall0 : Value → Except PyErr Value
  | .bound0 r => .ok r
  | _ => .error .typeError

/-- Calling a callable with one argument.  A hotswap function
(`custom_text_hotswap`) raises `TypeError` unless its argument is a
string; on a string it prompts and returns the user's line
(`userInput`). -/
def pyCall1 (f arg : Value) (userInput : Str) : Except PyErr Value :=
  match f with
  | .hotswap _ =>
    match arg with
    | .str _ => .ok (.str userInput)
    | _ => .error .typeError
  | _ => .error .typeError

/-- `made_decisions[first]`: dictionary lookup, `KeyError` if absent. -/
def lookupRM : List (Str × Value) → Str → Option Value
  | [], _ => none
  | (k, v) :: rest, x => if k = x then some v else lookupRM rest x

def bareLookup (rm : List (Str × Value)) (x : Str) : Except PyErr Value :=
  match lookupRM rm x with
  | some v => .ok v
  | none => .error (.keyError x)

/-- `inner` in `repl`.  `x.partition('!')` splits at the first `'!'`;
when the part after it is empty the body is a bare dictionary lookup.
Otherwise the part before the `'!'` is evaluated recursively, the rest is
tried as an attribute, and on failure evaluated as code — note the source
applies the resulting callback to `evaled_second` (the `None` it just
tested), not to `evaled_first`.  Recursion is bounded by a fuel argument
standing for Python's recursion limit; the top-level entry point supplies
enough fuel that the limit is never the deciding factor. -/
def inner (rm : List (Str × Value)) (userInput : Str) : Nat → Str → Except PyErr Value
  | 0, _ => .error .recursionLimit
  | fuel + 1, x =>
    match splitAtFirst '!' x with
    | none => bareLookup rm x
    | some (first, second) =>
      if second = [] then bareLookup rm first
      else do
        let evaledFirst ← inner rm userInput fuel first
        let evaledSecond ←
          match pyGetattr evaledFirst second with
          | some v => pure v
          | none => do
            let secondCallback ← evalGlobal second
            pyCall1 secondCallback Value.pyNone userInput
        if pyCallable evaledSecond then pyCall0 evaledSecond
        else pure evaledSecond

/-- The textual form `str(v)` of a value.  `License` defines `__str__`
(its long text); strings and `None` have fixed text; every other value's
`str` falls back to a default `repr` that embeds the object's address, so
it is kept symbolic. -/
inductive StrForm where
  | text (s : Str)
  | addrRepr (v : Value)

def pyStrOf : Value → StrForm
  | .str s => .text s
  | .license l _ => .text l
  | .pyNone => .text (lit "None")
  | v => .addrRepr v

/-- `repl`: evaluate a placeholder body and render it as text. -/
def repl (rm : List (Str × Value)) (userInput : Str) (body : Str) :
    Except PyErr StrForm :=
  (inner rm userInput (body.length + 1) body).map pyStrOf

/- § The template rewriter (`main`'s file loop). -/

/-- Try to match `<\$([^$]*)\$>` at the start of the string: `<$`, then a
run of non-`$` characters (the body), then `$>`.  Returns the body and
the rest of the string after the match. -/
def phMatchAt : Str → Option (Str × Str)
  | '<' :: '$' :: t =>
    match t.dropWhile (fun c => c ≠ '$') with
    | '$' :: '>' :: rest => some (t.takeWhile (fun c => c ≠ '$'), rest)
    | _ => none
  | _ => none

/-- Leftmost placeholder occurrence: the text before it, its body, and
the text after it. -/
def findPH : Str → Option (Str × Str × Str)
  | [] => none
  | c :: t =>
    match phMatchAt (c :: t) with
    | some (body, rest) => some ([], body, rest)
    | none => (findPH t).map (fun p => (c :: p.1, p.2.1, p.2.2))

/-- `any(pattern.finditer(original))` -/
def hasPlaceholder (s : Str) : Bool := (findPH s).isSome

/-- `pattern.sub(repl, original)`: replace every non-overlapping
occurrence left to right.  An exception raised by `repl` propagates;
`some` text is returned when every replacement rendered deterministic
text, `none` when some replacement's text was an address-dependent
`repr`. -/
def subAll (rm : List (Str × Value)) (userInput : Str) :
    Nat → Str → Except PyErr (Option Str)
  | 0, _ => .error .recursionLimit
  | fuel + 1, s =>
    match findPH s with
    | none => .ok (some s)
    | some (pre, body, rest) => do
      let piece ← repl rm userInput body
      let restOut ← subAll rm userInput fuel rest
      match piece, restOut with
      | .text t, some r => .ok (some (pre ++ t ++ r))
      | _, _ => .ok none

def pySubst (rm : List (Str × Value)) (userInput : Str) (s : Str) :
    Except PyErr (Option Str) :=
  subAll rm userInput (s.length + 1) s

/-- What one iteration of the rewrite loop does to one file: which
backup write and which rewrite of the file itself it performs, and
whether an exception escaped. -/
structure FileOutcome where
  backupWrite : Option (Str × Str)
  mainWrite : Option (Str × Str)
  raised : Option PyErr
deriving DecidableEq

def skipOutcome : FileOutcome := ⟨none, none, none⟩

/-- One iteration of `main`'s `for file in project_root.rglob('*')` loop,
on a file with the given name and text content.  Files with the `.bkp`
suffix and the readme are skipped.  When backups are requested and the
content has a placeholder, the original content is written to the
sibling backup path before substituting.  The substitution result of
line 277 is bound to nothing and never written: the file itself is never
rewritten. -/
def scanFile (backupFlag : Bool) (rm : List (Str × Value)) (userInput : Str)
    (name content : Str) : FileOutcome :=
  if pySuffix name = lit ".bkp" then skipOutcome
  else if name = lit "README.md" then skipOutcome
  else
    let bk : Option (Str × Str) :=
      if backupFlag && hasPlaceholder content then
        some (withSuffix name (lit ".bkp"), content)
      else none
    match pySubst rm userInput content with
    | .ok _ => ⟨bk, none, none⟩
    | .error e => ⟨bk, none, some e⟩

/- § The confirmation checkpoint in `main`. -/

def rewriteAll (backupFlag : Bool) (rm : List (Str × Value)) (userInput : Str)
    (files : List (Str × Str)) : List FileOutcome :=
  files.map (fun f => scanFile backupFlag rm userInput f.1 f.2)

/-- `main` after all decisions are made: print the mapping, read one
line; a non-empty line is `sys.exit(1)`, an empty line runs the rewrite
pass over the files under the project root. -/
inductive RunOutcome where
  | aborted (exitCode : Nat)
  | proceeded (outcomes : List FileOutcome)
deriving DecidableEq

def confirmAndRun (backupFlag : Bool) (rm : List (Str × Value)) (userInput : Str)
    (response : Str) (files : List (Str × Str)) : RunOutcome :=
  if response = [] then .proceeded (rewriteAll backupFlag rm userInput files)
  else .aborted 1

/-- The file writes an outcome performs. -/
def RunOutcome.writes : RunOutcome → List (Str × Str)
  | .aborted _ => []
  | .proceeded outs =>
    outs.flatMap (fun o => o.backupWrite.toList ++ o.mainWrite.toList)

/-- Applying a list of writes to a name-to-content filesystem map. -/
def applyWrites (files : List (Str × Str)) (ws : List (Str × Str)) :
    List (Str × Str) :=
  ws.foldl (fun fs w => (fs.filter (fun f => f.1 ≠ w.1)) ++ [w]) files

/- § `DecisionOption.describe`. -/

def DESCRIPTION_MAX_LEN : Nat := 20

/-- `self.value or repr(self.value)` for a string value: an empty string
is falsy, and `repr('')` is `''` written with two quote characters. -/
def printableValue (value : Str) : Str :=
  if value = [] then ['\'', '\''] else value

/-- `DecisionOption.describe` for a string-valued option (`len()` is only
defined on sized values; the described values in the claims are
strings). -/
def describe (name value : Str) : Str :=
  let charsLeft : Int := (DESCRIPTION_MAX_LEN : Int) - name.length - 3
  if charsLeft ≤ 0 then name
  else
    let printable := printableValue value
    if (printable.length : Int) ≤ charsLeft then
      name ++ lit " (" ++ printable ++ lit ")"
    else
      let charsLeft2 := charsLeft - 2
      if charsLeft2 ≤ 2 then name
      else
        let sideLen := (charsLeft2 / 2).toNat
        let a := printable.take sideLen
        let b := printable.drop (printable.length - sideLen)
        name ++ lit " (" ++ a ++ lit ".." ++ b ++ lit ")"

/- § Spec-side characterisations of the two validation patterns. -/

/-- A single literal character matches exactly its one-element string. -/
theorem chCls_iff (c0 : Char) (s : Str) : RxM (chCls c0) s ↔ s = [c0] := by
  unfold chCls
  rw [cls_iff]
  constructor
  · rintro ⟨c, hc, rfl⟩
    simp only [decide_eq_true_eq] at hc
    rw [hc]
  · rintro rfl
    exact ⟨c0, by simp, rfl⟩

/-- Spec side: one "Name <email>" group — a nonempty run of name
characters, one whitespace character, then `<local@domain>` with
nonempty runs of email characters. -/
def IsAuthor (s : Str) : Prop :=
  ∃ nm w lo dom,
    nm ≠ [] ∧ (∀ c ∈ nm, nameCls c = true) ∧ wsCls w = true ∧
    lo ≠ [] ∧ (∀ c ∈ lo, emailCls c = true) ∧
    dom ≠ [] ∧ (∀ c ∈ dom, emailCls c = true) ∧
    s = nm ++ w :: '<' :: (lo ++ '@' :: (dom ++ ['>']))

theorem author_iff (s : Str) : RxM authorRx s ↔ IsAuthor s := by
  unfold authorRx
  constructor
  · intro h
    rcases (cat_iff _ _ _).mp h with ⟨nm, r1, rfl, hnm, h1⟩
    rcases (plusCls_iff _ _).mp hnm with ⟨hne, hall⟩
    rcases (cat_iff _ _ _).mp h1 with ⟨ws, r2, rfl, hws, h2⟩
    rcases (cls_iff _ _).mp hws with ⟨w, hw, rfl⟩
    rcases (cat_iff _ _ _).mp h2 with ⟨l1, r3, rfl, hl1, h3⟩
    rw [chCls_iff] at hl1; subst hl1
    rcases (cat_iff _ _ _).mp h3 with ⟨lo, r4, rfl, hlo, h4⟩
    rcases (plusCls_iff _ _).mp hlo with ⟨hloe, hloall⟩
    rcases (cat_iff _ _ _).mp h4 with ⟨l2, r5, rfl, hl2, h5⟩
    rw [chCls_iff] at hl2; subst hl2
    rcases (cat_iff _ _ _).mp h5 with ⟨dom, l3, rfl, hdom, hl3⟩
    rcases (plusCls_iff _ _).mp hdom with ⟨hdome, hdomall⟩
    rw [chCls_iff] at hl3; subst hl3
    exact ⟨nm, w, lo, dom, hne, hall, hw, hloe, hloall, hdome, hdomall, by simp⟩
  · rintro ⟨nm, w, lo, dom, hne, hall, hw, hloe, hloall, hdome, hdomall, rfl⟩
    have h := RxM.cat ((plusCls_iff nameCls nm).mpr ⟨hne, hall⟩)
      (RxM.cat (RxM.cls wsCls w hw)
        (RxM.cat ((chCls_iff '<' _).mpr rfl)
          (RxM.cat ((plusCls_iff emailCls lo).mpr ⟨hloe, hloall⟩)
            (RxM.cat ((chCls_iff '@' _).mpr rfl)
              (RxM.cat ((plusCls_iff emailCls dom).mpr ⟨hdome, hdomall⟩)
                ((chCls_iff '>' _).mpr rfl))))))
    simpa using h

/-- Spec side: one or more comma-separated author groups, optional
whitespace after each comma. -/
inductive AuthorsText : Str → Prop where
  | single {s : Str} : IsAuthor s → AuthorsText s
  | more {a w t : Str} : IsAuthor a → (∀ c ∈ w, wsCls c = true) → AuthorsText t →
      AuthorsText (a ++ ',' :: (w ++ t))

theorem starSep_authors {rest : Str}
    (h : RxM (.star (.cat (chCls ',') (.cat (.star (.cls wsCls)) authorRx))) rest) :
    ∀ a, IsAuthor a → AuthorsText (a ++ rest) := by
  generalize hr : Rx.star (.cat (chCls ',') (.cat (.star (.cls wsCls)) authorRx)) = r at h
  induction h with
  | eps => cases hr
  | cls _ _ _ => cases hr
  | cat _ _ => cases hr
  | altL _ => cases hr
  | altR _ => cases hr
  | starNil =>
    cases hr
    intro a ha
    simpa using AuthorsText.single ha
  | starCons h1 h2 ih1 ih2 =>
    cases hr
    rename_i s1 s2
    intro a ha
    rcases (cat_iff _ _ _).mp h1 with ⟨c1, r1, rfl, hc1, hr1⟩
    rw [chCls_iff] at hc1; subst hc1
    rcases (cat_iff _ _ _).mp hr1 with ⟨w, a2, rfl, hwstar, ha2⟩
    have hw : ∀ c ∈ w, wsCls c = true := (starCls_iff wsCls w).mp hwstar
    have ha2' : IsAuthor a2 := (author_iff a2).mp ha2
    have ht : AuthorsText (a2 ++ s2) := ih2 rfl a2 ha2'
    have := AuthorsText.more ha hw ht
    simpa [List.append_assoc] using this

theorem authors_iff (s : Str) : RxM authorsRx s ↔ AuthorsText s := by
  constructor
  · intro h
    rcases (cat_iff _ _ _).mp h with ⟨a, rest, rfl, ha, hrest⟩
    exact starSep_authors hrest a ((author_iff a).mp ha)
  · intro h
    induction h with
    | single ha =>
      have := RxM.cat ((author_iff _).mpr ha)
        (RxM.starNil (a := .cat (chCls ',') (.cat (.star (.cls wsCls)) authorRx)))
      simpa using this
    | more ha hw ht ih =>
      rename_i a w t
      rcases (cat_iff _ _ _).mp ih with ⟨a2, rest, heq, ha2, hrest⟩
      subst heq
      have chunk : RxM (.cat (chCls ',') (.cat (.star (.cls wsCls)) authorRx))
          (',' :: (w ++ a2)) := by
        have := RxM.cat ((chCls_iff ',' [',']).mpr rfl)
          (RxM.cat ((starCls_iff wsCls w).mpr hw) ha2)
        simpa using this
      have hstar := RxM.starCons chunk hrest
      have := RxM.cat ((author_iff _).mpr ha) hstar
      simpa [List.append_assoc] using this

/- § Claims. -/

/-- C1: the claim says the rewrite pass writes the substituted text back
to the file.  In the source the result of `pattern.sub(repl, original)`
(line 277) is bound to nothing: the substitution is computed — here it
correctly yields "widgets" with no delimiters left — but the file is
never rewritten, with or without backup mode. -/
theorem C1_substitution_never_written_back :
    pySubst [(lit "package", Value.str (lit "widgets"))] [] (lit "<$package$>")
      = .ok (some (lit "widgets")) ∧
    (scanFile true [(lit "package", Value.str (lit "widgets"))] []
      (lit "pyproject.toml") (lit "<$package$>")).mainWrite = none ∧
    (scanFile false [(lit "package", Value.str (lit "widgets"))] []
      (lit "pyproject.toml") (lit "<$package$>")).mainWrite = none :=
  ⟨rfl, rfl, rfl⟩

/-- C2: a bare-name placeholder body (no `'!'` separator) evaluates to
the textual form of the value the resolution map holds for that name, and
raises a `KeyError` (the unresolved-reference error) when the name is
absent. -/
theorem C2_bare_name_lookup (rm : List (Str × Value)) (userInput body : Str)
    (h : splitAtFirst '!' body = none) :
    repl rm userInput body =
      match lookupRM rm body with
      | some v => .ok (pyStrOf v)
      | none => .error (.keyError body) := by
  unfold repl
  simp only [inner, h, bareLookup]
  cases hl : lookupRM rm body <;> simp [hl, Except.map]

theorem C2_bare_name_lookup_witness :
    repl [(lit "package", Value.str (lit "widgets"))] [] (lit "package")
      = .ok (.text (lit "widgets")) := by
  have h := C2_bare_name_lookup [(lit "package", Value.str (lit "widgets"))] []
    (lit "package") (by rfl)
  simpa using h

/-- C3: the claim says the code-snippet fallback callable is invoked with
`V`, the value of the left part.  The source invokes it with
`evaled_second` — the `None` it has just tested — so the fallback always
raises `TypeError` (the hotswap functions reject non-strings).  The first
conjunct evaluates the code at the failing input: a custom string value
"3.8" for `py_versions` with the accessor `preferred`.  The second shows
the call the claim describes (argument `V`) would have succeeded. -/
theorem C3_fallback_invoked_with_none :
    repl [(lit "py_versions", Value.str (lit "3.8"))] (lit "3.8")
      (lit "py_versions!preferred") = .error .typeError ∧
    pyCall1 (Value.hotswap (lit "preferred")) (Value.str (lit "3.8")) (lit "3.8")
      = .ok (.str (lit "3.8")) :=
  ⟨rfl, rfl⟩

/-- C4: the claim says entering `k` (1 ≤ k ≤ n) returns the value of the
k-th displayed option.  The menu is numbered from 1, but the response is
used as a 0-based index and compared with `<` instead of `<=`, and the
`DecisionOption` itself is returned rather than its value: with a single
option, entering "1" (its displayed number) reprompts; with two options,
entering "1" returns the second displayed option, as the whole
`DecisionOption`. -/
theorem C4_numeric_menu_off_by_one :
    make [(lit "blank", Value.str (lit "va"))] false (lit "1") = .reprompt ∧
    make [(lit "a", Value.str (lit "va")), (lit "b", Value.str (lit "vb"))] false
      (lit "1") = .ret (.decisionOpt (lit "b") (.str (lit "vb"))) :=
  ⟨rfl, rfl⟩

/-- C5: a non-empty response to the final confirmation aborts with exit
status 1 and performs no file writes, leaving every file byte-identical;
an empty response proceeds to the rewrite pass. -/
theorem C5_confirmation_gate (backupFlag : Bool) (rm : List (Str × Value))
    (userInput response : Str) (files : List (Str × Str)) :
    (response ≠ [] →
      confirmAndRun backupFlag rm userInput response files = .aborted 1 ∧
      applyWrites files (confirmAndRun backupFlag rm userInput response files).writes
        = files) ∧
    (response = [] →
      confirmAndRun backupFlag rm userInput response files
        = .proceeded (rewriteAll backupFlag rm userInput files)) := by
  constructor
  · intro h
    unfold confirmAndRun
    rw [if_neg h]
    exact ⟨rfl, rfl⟩
  · intro h
    unfold confirmAndRun
    rw [if_pos h]

theorem C5_confirmation_gate_witness :
    confirmAndRun true [] [] (lit "n") [(lit "a.txt", lit "body")] = .aborted 1 ∧
    applyWrites [(lit "a.txt", lit "body")]
      (confirmAndRun true [] [] (lit "n") [(lit "a.txt", lit "body")]).writes
      = [(lit "a.txt", lit "body")] :=
  (C5_confirmation_gate true [] [] (lit "n") [(lit "a.txt", lit "body")]).1 (by decide)

/-- C6: with backup mode enabled, a scanned file (not a backup, not the
readme) gets a backup write — to the sibling path with the `.bkp` suffix,
holding exactly the pre-substitution content — precisely when its content
has at least one placeholder. -/
theorem C6_backup_exactly_when_placeholder (rm : List (Str × Value))
    (userInput name content : Str)
    (h1 : ¬ pySuffix name = lit ".bkp") (h2 : ¬ name = lit "README.md") :
    (scanFile true rm userInput name content).backupWrite =
      if hasPlaceholder content then some (withSuffix name (lit ".bkp"), content)
      else none := by
  unfold scanFile
  rw [if_neg h1, if_neg h2]
  cases hs : pySubst rm userInput content <;> simp [hs]

theorem C6_backup_exactly_when_placeholder_witness :
    (scanFile true [] [] (lit "pyproject.toml") (lit "name = <$package$>")).backupWrite
      = some (lit "pyproject.bkp", lit "name = <$package$>") :=
  (C6_backup_exactly_when_placeholder [] [] (lit "pyproject.toml")
    (lit "name = <$package$>") (by decide) (by decide)).trans (by decide)

/-- C7 counterexample: `describe()` can exceed `DESCRIPTION_MAX_LEN`.
For an option whose name is 21 characters long, every branch returns the
bare name, which is longer than the budget. -/
theorem C7_describe_exceeds_budget :
    ¬ ((describe (lit "aaaaaaaaaaaaaaaaaaaaa") (lit "x")).length
        ≤ DESCRIPTION_MAX_LEN) := by decide

/-- C7 amended: `describe()` never exceeds
`max DESCRIPTION_MAX_LEN (length of the name)` — the budget can only be
exceeded by returning the bare name — and its result is the bare name,
the name with the full value preview, or a truncated preview keeping a
nonempty prefix and a nonempty suffix of the value joined by "..", with
the name always shown in full. -/
theorem C7_describe_bounded_amended (name value : Str) :
    (describe name value).length ≤ max DESCRIPTION_MAX_LEN name.length ∧
    (describe name value = name ∨
     describe name value = name ++ lit " (" ++ printableValue value ++ lit ")" ∨
     ∃ a mid b, a ≠ [] ∧ b ≠ [] ∧ printableValue value = a ++ mid ++ b ∧
       describe name value = name ++ lit " (" ++ a ++ lit ".." ++ b ++ lit ")") := by
  have e1 : (lit " (").length = 2 := rfl
  have e2 : (lit ")").length = 1 := rfl
  have e3 : (lit "..").length = 2 := rfl
  simp only [describe, DESCRIPTION_MAX_LEN, Nat.cast_ofNat]
  split_ifs with h1 h2 h3
  · exact ⟨le_max_right _ _, Or.inl rfl⟩
  · refine ⟨?_, Or.inr (Or.inl rfl)⟩
    simp only [List.length_append, e1, e2]
    omega
  · exact ⟨le_max_right _ _, Or.inl rfl⟩
  · set p := printableValue value with hp
    set s : Nat := (((20 : Int) - name.length - 3 - 2) / 2).toNat with hsdef
    have hcl2 : (2 : Int) < (20 : Int) - name.length - 3 - 2 := by omega
    have hs_int : (s : Int) = ((20 : Int) - name.length - 3 - 2) / 2 := by
      rw [hsdef]
      exact Int.toNat_of_nonneg (Int.ediv_nonneg (by omega) (by norm_num))
    have hdiv := Int.ediv_add_emod ((20 : Int) - name.length - 3 - 2) 2
    have hmod0 : (0 : Int) ≤ ((20 : Int) - name.length - 3 - 2) % 2 :=
      Int.emod_nonneg _ (by norm_num)
    have hmod1 : ((20 : Int) - name.length - 3 - 2) % 2 < 2 :=
      Int.emod_lt_of_pos _ (by norm_num)
    have hplen : ¬ ((p.length : Int) ≤ (20 : Int) - name.length - 3) := h2
    have hs1 : 1 ≤ s := by omega
    have hs2 : 2 * s ≤ p.length := by omega
    have hsp : s ≤ p.length := by omega
    refine ⟨?_, Or.inr (Or.inr ⟨p.take s, (p.drop s).take (p.length - s - s),
      p.drop (p.length - s), ?_, ?_, ?_, rfl⟩)⟩
    · have la : (p.take s).length = s := by
        rw [List.length_take]; omega
      have lb : (p.drop (p.length - s)).length = s := by
        rw [List.length_drop]; omega
      simp only [List.length_append, la, lb, e1, e2, e3]
      omega
    · have la : (p.take s).length = s := by
        rw [List.length_take]; omega
      intro hne
      rw [hne] at la
      simp at la
      omega
    · have lb : (p.drop (p.length - s)).length = s := by
        rw [List.length_drop]; omega
      intro hne
      rw [hne] at lb
      simp at lb
      omega
    · have estep : ((p.drop s).drop (p.length - s - s)) = p.drop (p.length - s) := by
        rw [List.drop_drop]
        congr 1
        omega
      have hsplit : p = p.take s ++
          ((p.drop s).take (p.length - s - s) ++ p.drop (p.length - s)) := by
        nth_rewrite 1 [← List.take_append_drop s p]
        congr 1
        nth_rewrite 1 [← List.take_append_drop (p.length - s - s) (p.drop s)]
        rw [estep]
      exact hsplit.trans (List.append_assoc _ _ _).symm

/-- C8: free text for the "year" decision is accepted — returning the raw
text — exactly when it is four decimal digits; anything else raises
`ValueError` inside `custom_option`, which `make` catches and turns into
a reprompt. -/
theorem C8_year_four_digits (s : Str) :
    yearCustomStep s =
      if s.length = 4 ∧ ∀ c ∈ s, ('0' ≤ c ∧ c ≤ '9') then
        CustomStep.accept (.str s)
      else CustomStep.reprompt := by
  have hiff : rmatch yearRx s = true ↔
      (s.length = 4 ∧ ∀ c ∈ s, ('0' ≤ c ∧ c ≤ '9')) := by
    rw [rmatch_iff]
    unfold yearRx
    rw [repCls_iff]
    simp [digitCls]
  by_cases hc : s.length = 4 ∧ ∀ c ∈ s, ('0' ≤ c ∧ c ≤ '9')
  · rw [if_pos hc]
    unfold yearCustomStep makeCustomStep custom_option
    rw [if_pos (hiff.mpr hc)]
  · rw [if_neg hc]
    unfold yearCustomStep makeCustomStep custom_option
    rw [if_neg (fun h => hc (hiff.mp h))]

/-- C9: free text for the "authors" decision is accepted — parsing into
the comma-split, stripped author entries — exactly when the whole input
is one or more comma-separated "Name <email>" groups; otherwise it
reprompts.  The first example parses into exactly two entries; "Ann Lee"
(no email part) reprompts. -/
theorem C9_authors_pattern :
    (∀ s : Str,
      (authorsCustomStep s = CustomStep.accept (Value.authorsV (authorsParts s))
        ↔ AuthorsText s) ∧
      (authorsCustomStep s = CustomStep.reprompt ↔ ¬ AuthorsText s)) ∧
    authorsCustomStep (lit "Ann Lee <ann@x.com>, Bo <bo@y.org>")
      = CustomStep.accept
          (Value.authorsV [lit "Ann Lee <ann@x.com>", lit "Bo <bo@y.org>"]) ∧
    authorsCustomStep (lit "Ann Lee") = CustomStep.reprompt := by
  refine ⟨?_, rfl, rfl⟩
  intro s
  have hiff : rmatch authorsRx s = true ↔ AuthorsText s :=
    (rmatch_iff _ _).trans (authors_iff s)
  unfold authorsCustomStep makeCustomStep authorsCustomOption custom_option
  by_cases hm : rmatch authorsRx s = true
  · rw [if_pos hm]
    exact ⟨iff_of_true rfl (hiff.mp hm),
      iff_of_false (by simp) (not_not_intro (hiff.mp hm))⟩
  · rw [if_neg hm]
    exact ⟨iff_of_false (by simp) (fun h => hm (hiff.mpr h)),
      iff_of_true rfl (fun h => hm (hiff.mpr h))⟩

/-- C10: a negative integer whose magnitude is at most the option count
is accepted by `make` and selects from the end of the list ("-1" is the
last option): Python's negative indexing passes the `response_int <
len(options)` guard and wraps around. -/
theorem C10_negative_index_accepted (options : List (Str × Value)) (hasCustom : Bool)
    (response : Str) (k : Nat) (h1 : 0 < k) (h2 : k ≤ options.length)
    (hp : pyInt response = some (-(k : Int))) :
    ∃ o, options[options.length - k]? = some o ∧
      make options hasCustom response = .ret (.decisionOpt o.1 o.2) := by
  have hidx : options.length - k < options.length := by omega
  refine ⟨options.get ⟨options.length - k, hidx⟩, ?_, ?_⟩
  · rw [List.getElem?_eq_getElem hidx]
    simp [List.get_eq_getElem]
  · have hk0 : (0 : Int) < (k : Int) := by exact_mod_cast h1
    have hlt : -(k : Int) < (options.length : Int) := by omega
    have hneg : ¬ ((0 : Int) ≤ -(k : Int)) := by omega
    have habs : (-(k : Int)).natAbs = k := by simp
    simp only [make, hp, pyListGet]
    rw [if_pos hlt, if_neg hneg, habs, if_pos h2,
      List.getElem?_eq_getElem hidx]
    simp [List.get_eq_getElem]

theorem C10_negative_index_accepted_witness :
    ∃ o, ([(lit "first", Value.str (lit "1")),
           (lit "last", Value.str (lit "2"))] : List (Str × Value))[1]? = some o ∧
      make [(lit "first", Value.str (lit "1")), (lit "last", Value.str (lit "2"))]
        false (lit "-1") = .ret (.decisionOpt o.1 o.2) :=
  C10_negative_index_accepted
    [(lit "first", Value.str (lit "1")), (lit "last", Value.str (lit "2"))]
    false (lit "-1") 1 (by decide) (by decide) (by decide)

end FillTemplate
